import Mathlib

/-!
Package adler32_mod: Adler-32 engine and charset-constrained validity predicate

A shallow embedding of `src/adler32_mod/adler32_mod.go`.

* Go `uint32` values are natural numbers; every `uint32` operation of the
  source is followed by an explicit reduction modulo `2 ^ 32` (`u32`).
* Go `int` values are integers (`Int`); the source only masks and compares
  them, so their width is never reached.
* Go `byte` values are `Fin 256`.
* Loops are recursive functions whose termination Lean checks.
* A slice access `a[i]` of `S_allowed` and of the search it runs is `a[i]?`:
  an access outside the slice (a Go panic) makes the function return `none`.
  The slicing `p[:nmax]`, `p[nmax:]` of `Update` stands under the test
  `len(p) > nmax` and is `List.take`, `List.drop`.
-/

namespace Adler32Mod

/-! ## Data model -/

/-- A Go `byte`. -/
abbrev Byte := Fin 256

/-- Modelled from the spec: the type `charset.Charset`, declared in package
`charset` of this repository (not part of the sources at hand). The only field
`adler32_mod` reads is `Combinations`, a slice of `int`; the pointer the Go
functions receive is taken to be non-nil. -/
structure Charset where
  /-- The allow-list read by `S_allowed`. -/
  Combinations : List Int
  deriving Repr, DecidableEq

/-- The constant `mod`: the largest prime that is less than 65536. -/
def mod : Nat := 65521

/-- The constant `nmax`: the block size of `Update`, the largest n such that
`255 * n * (n+1) / 2 + (n+1) * (mod-1) <= 2^32-1`. -/
def nmax : Nat := 5552

/-- Conversion to `uint32`: the value modulo `2 ^ 32`. -/
def u32 (x : Nat) : Nat := x % 2 ^ 32

/-! ## Checksum engine -/

/-- One iteration of the loop over `x := range p`: `s1 += uint32(x); s2 += s1`,
both additions in `uint32`. -/
def blockStep (s : Nat × Nat) (x : Byte) : Nat × Nat :=
  let s1 := u32 (s.1 + u32 x.val)
  let s2 := u32 (s.2 + s1)
  (s1, s2)

/-- The inner loop of `Update` over one block. -/
def blockLoop (s1 s2 : Nat) (p : List Byte) : Nat × Nat :=
  p.foldl blockStep (s1, s2)

/-- The outer loop of `Update`, `for len(p) > 0`, with the block-size
constant as the parameter `n`. A block size of `0` would never shorten `p`, so
the loop is defined for `0 < n` only. -/
@[semireducible] def updateLoop (n : Nat) (hn : 0 < n) (s1 s2 : Nat) (p : List Byte) :
    Nat × Nat :=
  if _hp : p.length > 0 then
    -- var q []byte; if len(p) > nmax then p, q = p[:nmax], p[nmax:]
    let blk := if p.length > n then p.take n else p
    let q := if p.length > n then p.drop n else []
    let s := blockLoop s1 s2 blk
    -- s1 %= mod; s2 %= mod; p = q
    updateLoop n hn (s.1 % mod) (s.2 % mod) q
  else (s1, s2)
termination_by p.length
decreasing_by
  simp only [gt_iff_lt] at *
  split
  · simp only [List.length_drop]; omega
  · simpa using _hp

/-- The function `Update` with the block-size constant `nmax` replaced by `n`. -/
def UpdateWith (n : Nat) (hn : 0 < n) (d : Nat) (p : List Byte) : Nat :=
  -- s1, s2 := uint32(d&0xffff), uint32(d>>16)
  let s := updateLoop n hn (u32 (d &&& 0xffff)) (u32 (d >>> 16)) p
  -- return uint32(s2<<16 | s1)
  u32 (u32 (s.2 <<< 16) ||| s.1)

/-- Add `p` to the running checksum `d`. -/
def Update (d : Nat) (p : List Byte) : Nat :=
  UpdateWith nmax (by decide) d p

/-- The low word: `S1(d) = int(d & 0xffff)`. -/
def S1 (d : Nat) : Int := ((d &&& 0xffff : Nat) : Int)

/-- The high word: `S2(d) = int(d >> 16)`. -/
def S2 (d : Nat) : Int := ((d >>> 16 : Nat) : Int)

/-- Checksum returns the Adler-32 checksum of data. -/
def Checksum (data : List Byte) : Nat := u32 (Update 1 data)

/-! ## Go standard library: `unicode/utf8.Valid` and `sort.SearchInts`

The two library functions the package calls, written after the library source. -/

namespace utf8

/-- The constant `RuneSelf`: bytes below it are single-byte runes. -/
def RuneSelf : Nat := 0x80
/-- Lowest continuation byte. -/
def locb : Nat := 0x80
/-- Highest continuation byte. -/
def hicb : Nat := 0xBF
/-- Entry of `first` for an illegal starter byte. -/
def xx : Nat := 0xF1

/-- The table `first` of the Go package `unicode/utf8`: information about the first byte
of an encoding; the low three bits are the size of the encoding, the high four
bits index `acceptRanges`. -/
def first (b : Byte) : Nat :=
  if b.val < 0x80 then 0xF0        -- as: ASCII, size 1
  else if b.val < 0xC2 then xx     -- 0x80-0xC1: invalid
  else if b.val < 0xE0 then 0x02   -- s1: accept 0, size 2
  else if b.val = 0xE0 then 0x13   -- s2: accept 1, size 3
  else if b.val < 0xED then 0x03   -- s3: accept 0, size 3
  else if b.val = 0xED then 0x23   -- s4: accept 2, size 3
  else if b.val < 0xF0 then 0x03   -- s3: accept 0, size 3
  else if b.val = 0xF0 then 0x34   -- s5: accept 3, size 4
  else if b.val < 0xF4 then 0x04   -- s6: accept 0, size 4
  else if b.val = 0xF4 then 0x44   -- s7: accept 4, size 4
  else xx                          -- 0xF5-0xFF: invalid

/-- The table `acceptRanges`: the range `(lo, hi)` allowed for the second
byte. Entries above 4 are the zero value of the Go array. -/
def acceptRanges (i : Nat) : Nat × Nat :=
  match i with
  | 0 => (locb, hicb)
  | 1 => (0xA0, hicb)
  | 2 => (locb, 0x9F)
  | 3 => (0x90, hicb)
  | 4 => (locb, 0x8F)
  | _ => (0, 0)

/-- The test `c < lo || hi < c` failing: `c` lies in the range `(lo, hi)`. -/
def inRange (r : Nat × Nat) (c : Byte) : Bool :=
  !(decide (c.val < r.1) || decide (r.2 < c.val))

/-- The checks `utf8.Valid` makes on a sequence that starts with the non-ASCII
byte `pi = p[i]`, `rest` being `p[i+1:]`: `none` when the function returns
false, `some size` when it goes on with `i += size`. The accesses `p[i+1]`,
`p[i+2]`, `p[i+3]` are in range by the test `i+size > n` made before them. -/
def seqSize (pi : Byte) (rest : List Byte) : Option Nat :=
  let x := first pi
  if x = xx then none                               -- illegal starter byte
  else
    let size := x &&& 7
    if size > 1 + rest.length then none             -- short or invalid
    else
      let accept := acceptRanges (x >>> 4)
      if !inRange accept (rest.getD 0 0) then none
      else if size = 2 then some size
      else if !inRange (locb, hicb) (rest.getD 1 0) then none
      else if size = 3 then some size
      else if !inRange (locb, hicb) (rest.getD 2 0) then none
      else some size

/-- The Go library function `utf8.Valid(p)`, as its loop `for i := 0; i < n;`
run on the remaining bytes `p[i:]`. The eight-byte ASCII fast path of the library
function computes the same result and is left out. -/
@[semireducible] def Valid (p : List Byte) : Bool :=
  match p with
  | [] => true
  | pi :: rest =>
    if pi.val < RuneSelf then Valid rest              -- i++; continue
    else
      match seqSize pi rest with
      | none => false
      | some size => Valid (rest.drop (size - 1))     -- i += size
termination_by p.length
decreasing_by
  all_goals simp only [List.length_cons, List.length_drop]
  all_goals omega

end utf8

namespace sort

/-- The loop of the Go library function `sort.Search`: while `i < j`, with
`h := int(uint(i+j) >> 1)`, set `i = h + 1` if `!f(h)` and `j = h` otherwise;
then return `i`. The predicate `f` may
fail (an index outside a slice), which ends the search with `none`. -/
@[semireducible] def searchLoop (f : Nat → Option Bool) (i j : Nat) : Option Nat :=
  if _h : i < j then
    let h := (i + j) >>> 1
    match f h with
    | none => none
    | some b =>
      if !b then searchLoop f (h + 1) j
      else searchLoop f i h
  else some i
termination_by j - i
decreasing_by
  all_goals simp only [Nat.shiftRight_eq_div_pow, pow_one] at *
  all_goals omega

/-- The Go library function `sort.Search(n, f)`. -/
def Search (n : Nat) (f : Nat → Option Bool) : Option Nat :=
  searchLoop f 0 n

/-- The Go library function `sort.SearchInts(a, x)`: `Search(len(a), f)` with
`f(i) = a[i] >= x`. -/
def SearchInts (a : List Int) (x : Int) : Option Nat :=
  Search a.length (fun i => (a[i]?).map (fun e => decide (e ≥ x)))

end sort

/-! ## Validity predicate -/

/-- Conversion of a Go `int` to `byte`: the low eight bits. -/
def toByte (x : Int) : Byte := Fin.ofNat (x % 256).toNat

/-- The test `IsUTF8(S)`: the two bytes `(S & 0xff00) >> 8` and `S & 0xff` are valid
UTF-8. -/
def IsUTF8 (S : Int) : Bool :=
  let firstByte := Int.shiftRight (Int.land S 0xff00) 8
  let secondByte := Int.land S 0xff
  let utf8Sequence := [toByte firstByte, toByte secondByte]
  utf8.Valid utf8Sequence

/-- The test `S_allowed_UTF8(S) = S > 0xc080 && IsUTF8(S)`. -/
def S_allowed_UTF8 (S : Int) : Bool :=
  decide (S > 0xc080) && IsUTF8 S

/-- The test `S_allowed(S, allowed_charset)`: binary search for `S` in the
combinations, then a test of the entry found. `none` is a slice access out of
range. -/
def S_allowed (S : Int) (allowed_charset : Charset) : Option Bool :=
  let combinations := allowed_charset.Combinations
  match sort.SearchInts combinations S with
  | none => none
  | some index_S =>
    if index_S = combinations.length then some false
    else
      match combinations[index_S]? with
      | none => none
      | some e => if e = S then some true else some false

/-- The test `S1_S2_allowed(S1, S2, cs) = S_allowed_UTF8(S2) && S_allowed(S1, cs)`; the
right operand of `&&` is evaluated only when the left one is true. -/
def S1_S2_allowed (s1 s2 : Int) (allowed_charset : Charset) : Option Bool :=
  if S_allowed_UTF8 s2 then S_allowed s1 allowed_charset else some false

/-- The predicate `Checksum_allowed(checksum, cs)`: `S1_S2_allowed` on the two
words of the checksum. -/
def Checksum_allowed (checksum : Nat) (allowed_charset : Charset) : Option Bool :=
  S1_S2_allowed (S1 checksum) (S2 checksum) allowed_charset

/-! ## Reference definitions -/

/-- One step of the Adler-32 recurrence over unbounded naturals. -/
def refStep (s : Nat × Nat) (x : Byte) : Nat × Nat :=
  (s.1 + x.val, s.2 + (s.1 + x.val))

/-- The Adler-32 recurrence over unbounded naturals, from the state `(a, b)`. -/
def refLoop (a b : Nat) (p : List Byte) : Nat × Nat :=
  p.foldl refStep (a, b)

/-- Sum of the bytes of `B`. -/
def byteSum (B : List Byte) : Nat := (B.map (fun x => x.val)).sum

/-- The reference value of the low word: `1 + b_0 + ... + b_(n-1)`. -/
def refS1 (B : List Byte) : Nat := 1 + byteSum B

/-- The reference value of the high word: the sum over `k = 1 .. n` of
`1 + b_0 + ... + b_(k-1)`. -/
def refS2 (B : List Byte) : Nat :=
  ((List.range B.length).map (fun k => 1 + byteSum (B.take (k + 1)))).sum

/-! ## Instrumented loops

The loops of `Update` once more, each with one observation added: whether an
addition wraps, the states passed through, the number of iterations. -/

/-- Whether one iteration of the inner loop wraps around `2 ^ 32`: either
`s1 += uint32(x)` or, with the new `s1`, `s2 += s1`. -/
def stepWraps (s : Nat × Nat) (x : Byte) : Bool :=
  decide (2 ^ 32 ≤ s.1 + u32 x.val) || decide (2 ^ 32 ≤ s.2 + u32 (s.1 + u32 x.val))

/-- Whether some iteration of the inner loop over the block `p` wraps. -/
def blockWraps : Nat → Nat → List Byte → Bool
  | _, _, [] => false
  | s1, s2, x :: p =>
    stepWraps (s1, s2) x ||
      blockWraps (blockStep (s1, s2) x).1 (blockStep (s1, s2) x).2 p

/-- Whether some addition wraps during the outer loop of `Update`; the loop
is that of `updateLoop`. -/
@[semireducible] def updateWraps (n : Nat) (hn : 0 < n) (s1 s2 : Nat) (p : List Byte) : Bool :=
  if _hp : p.length > 0 then
    let blk := if p.length > n then p.take n else p
    let q := if p.length > n then p.drop n else []
    let s := blockLoop s1 s2 blk
    blockWraps s1 s2 blk || updateWraps n hn (s.1 % mod) (s.2 % mod) q
  else false
termination_by p.length
decreasing_by
  simp only [gt_iff_lt] at *
  split
  · simp only [List.length_drop]; omega
  · simpa using _hp

/-- The outer loop of `Update` run with the inner-loop body `step`
(`blockStep` for the `uint32` additions, `refStep` for additions over
unbounded naturals): the final state, and the list of the states after every
byte, in order. -/
@[semireducible] def updateRun (step : Nat × Nat → Byte → Nat × Nat) (n : Nat) (hn : 0 < n)
    (s1 s2 : Nat) (p : List Byte) : (Nat × Nat) × List (Nat × Nat) :=
  if _hp : p.length > 0 then
    let blk := if p.length > n then p.take n else p
    let q := if p.length > n then p.drop n else []
    let s := blk.foldl step (s1, s2)
    let r := updateRun step n hn (s.1 % mod) (s.2 % mod) q
    (r.1, (blk.scanl step (s1, s2)).tail ++ r.2)
  else ((s1, s2), [])
termination_by p.length
decreasing_by
  simp only [gt_iff_lt] at *
  split
  · simp only [List.length_drop]; omega
  · simpa using _hp

/-- The outer loop of `Update` with a bound `fuel` on the number of
iterations of its body, for any block size `n`: `none` when the bound is
reached with input left. -/
def updateLoopFuel (n : Nat) : Nat → Nat → Nat → List Byte → Option (Nat × Nat)
  | 0, s1, s2, p => if p.length > 0 then none else some (s1, s2)
  | fuel + 1, s1, s2, p =>
    if p.length > 0 then
      let blk := if p.length > n then p.take n else p
      let q := if p.length > n then p.drop n else []
      let s := blockLoop s1 s2 blk
      updateLoopFuel n fuel (s.1 % mod) (s.2 % mod) q
    else some (s1, s2)

/-- The function `Update` with at most `fuel` iterations of its outer loop. -/
def UpdateFuel (fuel : Nat) (d : Nat) (p : List Byte) : Option Nat :=
  (updateLoopFuel nmax fuel (u32 (d &&& 0xffff)) (u32 (d >>> 16)) p).map
    (fun s => u32 (u32 (s.2 <<< 16) ||| s.1))


/-! ## Word arithmetic -/

theorem u32_of_lt {x : Nat} (h : x < 2 ^ 32) : u32 x = x := by
  unfold u32; exact Nat.mod_eq_of_lt h

theorem land_ffff (d : Nat) : d &&& 0xffff = d % 65536 := by
  have h := Nat.and_pow_two_sub_one_eq_mod d 16
  simpa using h

theorem shr_16 (d : Nat) : d >>> 16 = d / 65536 := by
  simp [Nat.shiftRight_eq_div_pow]

theorem pack_eq {a b : Nat} (ha : a < 65536) (hb : b < 65536) :
    u32 (u32 (b <<< 16) ||| a) = b * 65536 + a := by
  have h1 : b <<< 16 = b * 65536 := by simp [Nat.shiftLeft_eq]
  have h2 : b * 65536 < 2 ^ 32 := by omega
  have h3 : b * 65536 ||| a = b * 65536 + a := by
    have h := Nat.mul_add_lt_is_or (show a < 2 ^ 16 by omega) b
    have e : 2 ^ 16 * b = b * 65536 := by omega
    rw [e] at h
    exact h.symm
  rw [h1, u32_of_lt h2, h3, u32_of_lt (by omega)]

theorem S1_eq (d : Nat) : S1 d = ((d % 65536 : Nat) : Int) := by
  unfold S1; rw [land_ffff]

theorem S2_eq (d : Nat) : S2 d = ((d / 65536 : Nat) : Int) := by
  unfold S2; rw [shr_16]


/-! ## The inner loop never wraps -/

theorem refLoop_nil (a b : Nat) : refLoop a b [] = (a, b) := rfl

theorem refLoop_cons (a b : Nat) (x : Byte) (p : List Byte) :
    refLoop a b (x :: p) = refLoop (a + x.val) (b + (a + x.val)) p := rfl

theorem refLoop_append (a b : Nat) (p q : List Byte) :
    refLoop a b (p ++ q) = refLoop (refLoop a b p).1 (refLoop a b p).2 q := by
  simp [refLoop, List.foldl_append]

theorem blockLoop_nil (a b : Nat) : blockLoop a b [] = (a, b) := rfl

theorem blockLoop_cons (a b : Nat) (x : Byte) (p : List Byte) :
    blockLoop a b (x :: p) =
      blockLoop (u32 (a + u32 x.val)) (u32 (b + u32 (a + u32 x.val))) p := rfl

/-- The unbounded accumulators only grow. -/
theorem refLoop_ge (p : List Byte) (a b : Nat) :
    a ≤ (refLoop a b p).1 ∧ b ≤ (refLoop a b p).2 := by
  induction p generalizing a b with
  | nil => simp [refLoop_nil]
  | cons x p ih =>
    rw [refLoop_cons]
    have h := ih (a + x.val) (b + (a + x.val))
    omega

/-- Closed bound on the unbounded accumulators after `p.length` bytes. -/
theorem refLoop_le (p : List Byte) (a b : Nat) :
    (refLoop a b p).1 ≤ a + 255 * p.length ∧
    2 * (refLoop a b p).2 ≤
      2 * b + 2 * (p.length * a) + 255 * (p.length * (p.length + 1)) := by
  induction p generalizing a b with
  | nil => simp [refLoop_nil]
  | cons x p ih =>
    rw [refLoop_cons]
    obtain ⟨h1, h2⟩ := ih (a + x.val) (b + (a + x.val))
    have hx : x.val ≤ 255 := by have := x.isLt; omega
    have hm : p.length * x.val ≤ p.length * 255 := Nat.mul_le_mul_left _ hx
    simp only [List.length_cons]
    constructor
    · omega
    · have e1 : p.length * (a + x.val) = p.length * a + p.length * x.val := by ring
      have e2 : (p.length + 1) * a = p.length * a + a := by ring
      have e3 : (p.length + 1) * (p.length + 1 + 1)
          = p.length * (p.length + 1) + 2 * p.length + 2 := by ring
      rw [e1] at h2
      rw [e2, e3]
      omega

/-- With no wrap at the end of the block, the `uint32` loop is the unbounded one. -/
theorem blockLoop_eq_refLoop_of_lt (p : List Byte) (a b : Nat)
    (h1 : (refLoop a b p).1 < 2 ^ 32) (h2 : (refLoop a b p).2 < 2 ^ 32) :
    blockLoop a b p = refLoop a b p := by
  induction p generalizing a b with
  | nil => rfl
  | cons x p ih =>
    rw [refLoop_cons] at h1 h2
    have hg := refLoop_ge p (a + x.val) (b + (a + x.val))
    have hx : x.val < 256 := x.isLt
    have ex : u32 x.val = x.val := u32_of_lt (by omega)
    have ea : u32 (a + x.val) = a + x.val := u32_of_lt (by omega)
    have eb : u32 (b + (a + x.val)) = b + (a + x.val) := u32_of_lt (by omega)
    rw [blockLoop_cons, refLoop_cons, ex, ea, eb]
    exact ih _ _ h1 h2

/-- The numeric fact behind `nmax`: from 16-bit accumulators, a block of at
most 5552 bytes stays below `2 ^ 32`. -/
theorem refLoop_lt_of_block (p : List Byte) (a b : Nat)
    (ha : a < 65536) (hb : b < 65536) (hp : p.length ≤ 5552) :
    (refLoop a b p).1 < 2 ^ 32 ∧ (refLoop a b p).2 < 2 ^ 32 := by
  obtain ⟨h1, h2⟩ := refLoop_le p a b
  have m1 : p.length * a ≤ 5552 * 65535 := Nat.mul_le_mul hp (by omega)
  have m2 : p.length * (p.length + 1) ≤ 5552 * 5553 := Nat.mul_le_mul hp (by omega)
  constructor <;> omega

theorem blockLoop_eq_refLoop (p : List Byte) (a b : Nat)
    (ha : a < 65536) (hb : b < 65536) (hp : p.length ≤ 5552) :
    blockLoop a b p = refLoop a b p := by
  obtain ⟨h1, h2⟩ := refLoop_lt_of_block p a b ha hb hp
  exact blockLoop_eq_refLoop_of_lt p a b h1 h2

/-- The unbounded recurrence respects congruence modulo `mod` of its start state. -/
theorem refLoop_modEq (p : List Byte) (a b a2 b2 : Nat)
    (ha : a % mod = a2 % mod) (hb : b % mod = b2 % mod) :
    (refLoop a b p).1 % mod = (refLoop a2 b2 p).1 % mod ∧
    (refLoop a b p).2 % mod = (refLoop a2 b2 p).2 % mod := by
  induction p generalizing a b a2 b2 with
  | nil => exact ⟨ha, hb⟩
  | cons x p ih =>
    rw [refLoop_cons, refLoop_cons]
    unfold mod at *
    apply ih <;> omega


/-! ## The outer loop -/

theorem updateLoop_nil (n : Nat) (hn : 0 < n) (a b : Nat) :
    updateLoop n hn a b [] = (a, b) := by
  rw [updateLoop]; simp

/-- One pass of the outer loop on a non-empty input. -/
theorem updateLoop_step (n : Nat) (hn : 0 < n) (a b : Nat) (p : List Byte) (hp : p ≠ []) :
    updateLoop n hn a b p =
      updateLoop n hn
        ((blockLoop a b (if p.length > n then p.take n else p)).1 % mod)
        ((blockLoop a b (if p.length > n then p.take n else p)).2 % mod)
        (if p.length > n then p.drop n else []) := by
  have hl : p.length > 0 := List.length_pos.mpr hp
  rw [updateLoop]
  simp only [hl, dite_true]

/-- The outer loop computes the unbounded recurrence modulo `mod`, for every
block size from 1 to 5552 and every 16-bit start state. -/
theorem updateLoop_eq (n : Nat) (hn : 0 < n) (hn2 : n ≤ 5552) :
    ∀ (k : Nat) (p : List Byte) (a b : Nat), p.length = k → p ≠ [] →
      a < 65536 → b < 65536 →
      updateLoop n hn a b p = ((refLoop a b p).1 % mod, (refLoop a b p).2 % mod) := by
  intro k
  induction k using Nat.strong_induction_on with
  | _ k ih =>
    intro p a b hk hp ha hb
    rw [updateLoop_step n hn a b p hp]
    by_cases hlt : p.length > n
    · simp only [hlt, if_true]
      have htl : (p.take n).length ≤ 5552 := by
        rw [List.length_take]; omega
      have hq : p.drop n ≠ [] := by
        intro h
        have := congrArg List.length h
        simp only [List.length_drop, List.length_nil] at this
        omega
      have hql : (p.drop n).length < k := by
        rw [List.length_drop]; omega
      rw [blockLoop_eq_refLoop _ a b ha hb htl]
      have hm : ∀ x : Nat, x % mod < 65536 := by
        intro x
        have := Nat.mod_lt x (show mod > 0 by decide)
        unfold mod at *
        omega
      rw [ih _ hql (p.drop n) _ _ rfl hq (hm _) (hm _)]
      have hc := refLoop_modEq (p.drop n)
        ((refLoop a b (p.take n)).1 % mod) ((refLoop a b (p.take n)).2 % mod)
        (refLoop a b (p.take n)).1 (refLoop a b (p.take n)).2
        (Nat.mod_mod _ _) (Nat.mod_mod _ _)
      have happ := refLoop_append a b (p.take n) (p.drop n)
      rw [List.take_append_drop] at happ
      rw [hc.1, hc.2, ← happ]
    · simp only [hlt, if_false]
      have hpl : p.length ≤ 5552 := by omega
      rw [blockLoop_eq_refLoop _ a b ha hb hpl, updateLoop_nil]

/-- The start state `uint32(d&0xffff), uint32(d>>16)` of a 32-bit `d`. -/
theorem start_state (d : Nat) (hd : d < 2 ^ 32) :
    u32 (d &&& 0xffff) = d % 65536 ∧ u32 (d >>> 16) = d / 65536 ∧
      d % 65536 < 65536 ∧ d / 65536 < 65536 := by
  rw [land_ffff, shr_16]
  have h1 : d % 65536 < 65536 := Nat.mod_lt _ (by decide)
  have h2 : d / 65536 < 65536 := by omega
  exact ⟨u32_of_lt (by omega), u32_of_lt (by omega), h1, h2⟩

/-- Applying `UpdateWith` to no data returns the prior checksum. -/
theorem UpdateWith_nil (n : Nat) (hn : 0 < n) (d : Nat) (hd : d < 2 ^ 32) :
    UpdateWith n hn d [] = d := by
  obtain ⟨e1, e2, h1, h2⟩ := start_state d hd
  unfold UpdateWith
  simp only [updateLoop_nil, e1, e2]
  rw [pack_eq h1 h2]
  omega

/-- Applying `UpdateWith` to data: the packed unbounded recurrence, reduced modulo `mod`. -/
theorem UpdateWith_eq (n : Nat) (hn : 0 < n) (hn2 : n ≤ 5552) (d : Nat) (hd : d < 2 ^ 32)
    (p : List Byte) (hp : p ≠ []) :
    UpdateWith n hn d p =
      (refLoop (d % 65536) (d / 65536) p).2 % mod * 65536 +
        (refLoop (d % 65536) (d / 65536) p).1 % mod := by
  obtain ⟨e1, e2, h1, h2⟩ := start_state d hd
  unfold UpdateWith
  simp only [e1, e2]
  rw [updateLoop_eq n hn hn2 p.length p _ _ rfl hp h1 h2]
  have hm : ∀ x : Nat, x % mod < 65536 := by
    intro x
    have := Nat.mod_lt x (show mod > 0 by decide)
    unfold mod at *
    omega
  exact pack_eq (hm _) (hm _)

theorem nmax_le : nmax ≤ 5552 := by decide

theorem Update_nil (d : Nat) (hd : d < 2 ^ 32) : Update d [] = d :=
  UpdateWith_nil nmax _ d hd

theorem Update_eq (d : Nat) (hd : d < 2 ^ 32) (p : List Byte) (hp : p ≠ []) :
    Update d p =
      (refLoop (d % 65536) (d / 65536) p).2 % mod * 65536 +
        (refLoop (d % 65536) (d / 65536) p).1 % mod :=
  UpdateWith_eq nmax _ nmax_le d hd p hp

/-- Every result of `Update` on a 32-bit prior is a 32-bit value. -/
theorem Update_lt (d : Nat) (hd : d < 2 ^ 32) (p : List Byte) : Update d p < 2 ^ 32 := by
  by_cases hp : p = []
  · subst hp; rw [Update_nil d hd]; exact hd
  · rw [Update_eq d hd p hp]
    have h1 := Nat.mod_lt (refLoop (d % 65536) (d / 65536) p).1 (show mod > 0 by decide)
    have h2 := Nat.mod_lt (refLoop (d % 65536) (d / 65536) p).2 (show mod > 0 by decide)
    unfold mod at *
    omega


/-! ## The reference sums -/

theorem byteSum_nil : byteSum [] = 0 := rfl

theorem byteSum_cons (x : Byte) (B : List Byte) : byteSum (x :: B) = x.val + byteSum B := by
  simp [byteSum]

theorem refLoop_fst (B : List Byte) (a b : Nat) : (refLoop a b B).1 = a + byteSum B := by
  induction B generalizing a b with
  | nil => simp [refLoop_nil, byteSum_nil]
  | cons x B ih => rw [refLoop_cons, ih, byteSum_cons]; omega

theorem refLoop_snd (B : List Byte) (a b : Nat) :
    (refLoop a b B).2 =
      b + ((List.range B.length).map (fun k => a + byteSum (B.take (k + 1)))).sum := by
  induction B generalizing a b with
  | nil => simp [refLoop_nil]
  | cons x B ih =>
    rw [refLoop_cons, ih]
    simp only [List.length_cons, List.range_succ_eq_map, List.map_cons, List.sum_cons,
      List.map_map, List.take_succ_cons, List.take_zero, byteSum_cons, byteSum_nil]
    have e : ((fun k => a + (x.val + byteSum (List.take k B))) ∘ Nat.succ)
        = fun k => a + x.val + byteSum (List.take (k + 1) B) := by
      funext k
      simp only [Function.comp, Nat.succ_eq_add_one]
      omega
    rw [e]
    omega

theorem refLoop_one_zero (B : List Byte) : refLoop 1 0 B = (refS1 B, refS2 B) := by
  apply Prod.ext
  · simp [refLoop_fst, refS1]
  · simp [refLoop_snd, refS2]

theorem mod_lt_word (x : Nat) : x % mod < 65536 := by
  have := Nat.mod_lt x (show mod > 0 by decide)
  unfold mod at *
  omega

theorem Checksum_eq_Update (B : List Byte) : Checksum B = Update 1 B :=
  u32_of_lt (Update_lt 1 (by decide) B)

theorem Checksum_eq (B : List Byte) :
    Checksum B = refS2 B % 65521 * 65536 + refS1 B % 65521 := by
  rw [Checksum_eq_Update]
  by_cases hB : B = []
  · subst hB; rw [Update_nil 1 (by decide)]; decide
  · rw [Update_eq 1 (by decide) B hB]
    have e1 : (1 : Nat) % 65536 = 1 := by decide
    have e2 : (1 : Nat) / 65536 = 0 := by decide
    rw [e1, e2, refLoop_one_zero]
    rfl


theorem word_split (s1 s2 : Nat) (h1 : s1 < 65536) :
    (s2 * 65536 + s1) % 65536 = s1 ∧ (s2 * 65536 + s1) / 65536 = s2 := by
  constructor <;> omega

/-- Chunked calls compose, for every 32-bit prior. -/
theorem Update_append (d : Nat) (hd : d < 2 ^ 32) (a b : List Byte) :
    Update (Update d a) b = Update d (a ++ b) := by
  by_cases ha : a = []
  · subst ha; rw [Update_nil d hd, List.nil_append]
  by_cases hb : b = []
  · subst hb; rw [Update_nil _ (Update_lt d hd a), List.append_nil]
  have hab : a ++ b ≠ [] := by simp [ha]
  rw [Update_eq _ (Update_lt d hd a) b hb, Update_eq d hd (a ++ b) hab, Update_eq d hd a ha]
  obtain ⟨e1, e2⟩ := word_split ((refLoop (d % 65536) (d / 65536) a).1 % mod)
    ((refLoop (d % 65536) (d / 65536) a).2 % mod) (mod_lt_word _)
  rw [e1, e2, refLoop_append]
  have hc := refLoop_modEq b
    ((refLoop (d % 65536) (d / 65536) a).1 % mod) ((refLoop (d % 65536) (d / 65536) a).2 % mod)
    (refLoop (d % 65536) (d / 65536) a).1 (refLoop (d % 65536) (d / 65536) a).2
    (Nat.mod_mod _ _) (Nat.mod_mod _ _)
  rw [hc.1, hc.2]

/-- Both halves of `Update d p` are reduced when `p` is not empty. -/
theorem Update_halves (d : Nat) (hd : d < 2 ^ 32) (p : List Byte) (hp : p ≠ []) :
    Update d p % 65536 < 65521 ∧ Update d p / 65536 < 65521 := by
  rw [Update_eq d hd p hp]
  have h1 := Nat.mod_lt (refLoop (d % 65536) (d / 65536) p).1 (show mod > 0 by decide)
  have h2 := Nat.mod_lt (refLoop (d % 65536) (d / 65536) p).2 (show mod > 0 by decide)
  unfold mod at *
  constructor <;> omega

/-- The two words of `Checksum B` are the reduced reference sums. -/
theorem Checksum_words (B : List Byte) :
    S1 (Checksum B) = ((refS1 B % 65521 : Nat) : Int) ∧
    S2 (Checksum B) = ((refS2 B % 65521 : Nat) : Int) := by
  have h1 : refS1 B % 65521 < 65521 := Nat.mod_lt _ (by decide)
  obtain ⟨e1, e2⟩ := word_split (refS1 B % 65521) (refS2 B % 65521) (by omega)
  rw [S1_eq, S2_eq, Checksum_eq B, e1, e2]
  exact ⟨rfl, rfl⟩

/-! ## Claims on the checksum engine -/

/-- C1: for every byte sequence `B`, `Checksum B` is the Adler-32 reference
value: its low word is `(1 + sum of the bytes) mod 65521`, its high word is
`(sum over k = 1..n of (1 + b_0 + ... + b_(k-1))) mod 65521`, both sums over
unbounded naturals, and `Checksum B = S2 * 65536 + S1`. -/
theorem Checksum_adler32_reference (B : List Byte) :
    S1 (Checksum B) = ((refS1 B % 65521 : Nat) : Int) ∧
    S2 (Checksum B) = ((refS2 B % 65521 : Nat) : Int) ∧
    Checksum B = refS2 B % 65521 * 65536 + refS1 B % 65521 ∧
    (Checksum B : Int) = S2 (Checksum B) * 65536 + S1 (Checksum B) := by
  obtain ⟨h1, h2⟩ := Checksum_words B
  refine ⟨h1, h2, Checksum_eq B, ?_⟩
  rw [h1, h2, Checksum_eq B]
  push_cast
  ring

/-- C2: chunked calls compose. For every 32-bit prior `d` and byte sequences
`a`, `b`, `Update (Update d a) b = Update d (a ++ b)`; and for every byte
sequence `B` and split point `k ≤ len B`,
`Update (Update 1 B[:k]) B[k:] = Checksum B`. -/
theorem Update_chunking_invariance (d : Nat) (a b B : List Byte) (k : Nat)
    (hd : d < 2 ^ 32) (_hk : k ≤ B.length) :
    Update (Update d a) b = Update d (a ++ b) ∧
    Update (Update 1 (B.take k)) (B.drop k) = Checksum B := by
  refine ⟨Update_append d hd a b, ?_⟩
  rw [Update_append 1 (by decide), List.take_append_drop, Checksum_eq_Update]

theorem Update_chunking_invariance_witness :
    (0xFFFFFFFF : Nat) < 2 ^ 32 ∧ 2 ≤ ([1, 255, 7, 0] : List Byte).length ∧
    Update (Update 0xFFFFFFFF [200, 3]) [9] = Update 0xFFFFFFFF ([200, 3] ++ [9]) ∧
    Update (Update 1 (([1, 255, 7, 0] : List Byte).take 2)) (([1, 255, 7, 0] : List Byte).drop 2)
      = Checksum [1, 255, 7, 0] :=
  ⟨by decide, by decide,
    Update_chunking_invariance 0xFFFFFFFF [200, 3] [9] [1, 255, 7, 0] 2 (by decide) (by decide)⟩

/-- C8: for every byte sequence `B` both halves of `Checksum B` lie in
`[0, 65520]`; and for every 32-bit prior `d`, reduced or not, and every
non-empty `p`, both halves of `Update d p` lie in `[0, 65520]`. -/
theorem Update_halves_reduced (B : List Byte) (d : Nat) (p : List Byte)
    (hd : d < 2 ^ 32) (hp : p ≠ []) :
    (0 ≤ S1 (Checksum B) ∧ S1 (Checksum B) ≤ 65520 ∧
      0 ≤ S2 (Checksum B) ∧ S2 (Checksum B) ≤ 65520) ∧
    (0 ≤ S1 (Update d p) ∧ S1 (Update d p) ≤ 65520 ∧
      0 ≤ S2 (Update d p) ∧ S2 (Update d p) ≤ 65520) := by
  constructor
  · obtain ⟨h1, h2⟩ := Checksum_words B
    rw [h1, h2]
    have a1 : refS1 B % 65521 < 65521 := Nat.mod_lt _ (by decide)
    have a2 : refS2 B % 65521 < 65521 := Nat.mod_lt _ (by decide)
    omega
  · obtain ⟨h1, h2⟩ := Update_halves d hd p hp
    rw [S1_eq, S2_eq]
    omega

theorem Update_halves_reduced_witness :
    (0xFFFFFFFF : Nat) < 2 ^ 32 ∧ ([0] : List Byte) ≠ [] ∧
    ((0 ≤ S1 (Checksum [250, 250]) ∧ S1 (Checksum [250, 250]) ≤ 65520 ∧
      0 ≤ S2 (Checksum [250, 250]) ∧ S2 (Checksum [250, 250]) ≤ 65520) ∧
    (0 ≤ S1 (Update 0xFFFFFFFF [0]) ∧ S1 (Update 0xFFFFFFFF [0]) ≤ 65520 ∧
      0 ≤ S2 (Update 0xFFFFFFFF [0]) ∧ S2 (Update 0xFFFFFFFF [0]) ≤ 65520)) :=
  ⟨by decide, by decide,
    Update_halves_reduced [250, 250] 0xFFFFFFFF [0] (by decide) (by decide)⟩

/-- C9: the checksum of the empty byte sequence is the identity value:
`Checksum [] = 1`, with `S1 = 1` and `S2 = 0`. -/
theorem Checksum_empty :
    Checksum [] = 1 ∧ S1 (Checksum []) = 1 ∧ S2 (Checksum []) = 0 := by
  decide

/-- C10: block-boundary invariance. For every block size `n` with
`1 ≤ n ≤ 5552`, every 32-bit prior `d` and every byte sequence `p`,
`UpdateWith n d p = Update d p = UpdateWith 5552 d p`. -/
theorem UpdateWith_block_invariance (n : Nat) (hn : 0 < n) (hn2 : n ≤ 5552)
    (d : Nat) (hd : d < 2 ^ 32) (p : List Byte) :
    UpdateWith n hn d p = Update d p ∧
    Update d p = UpdateWith 5552 (by decide) d p := by
  refine ⟨?_, rfl⟩
  by_cases hp : p = []
  · subst hp; rw [UpdateWith_nil n hn d hd, Update_nil d hd]
  · rw [UpdateWith_eq n hn hn2 d hd p hp, Update_eq d hd p hp]

theorem UpdateWith_block_invariance_witness :
    (0 : Nat) < 2 ∧ (2 : Nat) ≤ 5552 ∧ (0xFFFFFFFF : Nat) < 2 ^ 32 ∧
    UpdateWith 2 (by decide) 0xFFFFFFFF [255, 254, 253, 252, 251]
      = Update 0xFFFFFFFF [255, 254, 253, 252, 251] ∧
    Update 0xFFFFFFFF [255, 254, 253, 252, 251]
      = UpdateWith 5552 (by decide) 0xFFFFFFFF [255, 254, 253, 252, 251] :=
  ⟨by decide, by decide, by decide,
    UpdateWith_block_invariance 2 (by decide) (by decide) 0xFFFFFFFF (by decide)
      [255, 254, 253, 252, 251]⟩


/-! ## `utf8.Valid` on two bytes -/

theorem Valid_nil : utf8.Valid [] = true := by
  rw [utf8.Valid]

theorem Valid_ascii (x : Byte) (rest : List Byte) (h : x.val < 0x80) :
    utf8.Valid (x :: rest) = utf8.Valid rest := by
  rw [utf8.Valid]
  rw [if_pos (by simpa [utf8.RuneSelf] using h)]

theorem Valid_multi (x : Byte) (rest : List Byte) (h : ¬ x.val < 0x80) :
    utf8.Valid (x :: rest) =
      match utf8.seqSize x rest with
      | none => false
      | some size => utf8.Valid (rest.drop (size - 1)) := by
  rw [utf8.Valid]
  rw [if_neg (by simpa [utf8.RuneSelf] using h)]

/-- The entry of `first` for a non-ASCII byte: illegal, or size 2 for
`0xC2..0xDF` with accept range 0, or a size of 3 or 4. -/
theorem first_cases (b : Byte) (h : ¬ b.val < 0x80) :
    utf8.first b = utf8.xx ∧ (b.val < 0xC2 ∨ 0xF4 < b.val) ∨
    utf8.first b = 0x02 ∧ 0xC2 ≤ b.val ∧ b.val ≤ 0xDF ∨
    (utf8.first b ≠ utf8.xx ∧ 3 ≤ utf8.first b &&& 7 ∧ 0xE0 ≤ b.val ∧ b.val ≤ 0xF4) := by
  have hb := b.isLt
  unfold utf8.first
  split_ifs <;> first
    | (left; exact ⟨rfl, by omega⟩)
    | (right; left; exact ⟨rfl, by omega, by omega⟩)
    | (right; right; exact ⟨by decide, by decide, by omega, by omega⟩)

theorem seqSize_illegal (x : Byte) (rest : List Byte) (e : utf8.first x = utf8.xx) :
    utf8.seqSize x rest = none := by
  simp only [utf8.seqSize]
  rw [if_pos e]

theorem seqSize_short (x : Byte) (rest : List Byte)
    (hs : utf8.first x &&& 7 > 1 + rest.length) :
    utf8.seqSize x rest = none := by
  simp only [utf8.seqSize]
  rw [if_pos hs]
  split_ifs <;> rfl

theorem seqSize_nil (x : Byte) (h : ¬ x.val < 0x80) : utf8.seqSize x [] = none := by
  rcases first_cases x h with ⟨e, _⟩ | ⟨e, _⟩ | ⟨_, h3, _⟩
  · exact seqSize_illegal x [] e
  · apply seqSize_short
    rw [e]
    decide
  · apply seqSize_short
    simp only [List.length_nil]
    omega

theorem seqSize_two (x c : Byte) (e : utf8.first x = 0x02) :
    utf8.seqSize x [c] = if 0x80 ≤ c.val ∧ c.val ≤ 0xBF then some 2 else none := by
  have a1 : (2 : Nat) &&& 7 = 2 := by decide
  have a2 : (2 : Nat) >>> 4 = 0 := by decide
  have a3 : ¬ ((2 : Nat) = utf8.xx) := by decide
  have a4 : ¬ ((2 : Nat) > 1 + 1) := by decide
  simp only [utf8.seqSize, e, a1, a2, a3, a4, if_false, if_true, List.length_cons,
    List.length_nil, List.getD_cons_zero, utf8.acceptRanges, utf8.inRange, utf8.locb,
    utf8.hicb, Nat.zero_add]
  by_cases hc : 0x80 ≤ c.val ∧ c.val ≤ 0xBF
  · rw [if_pos hc, if_neg]
    simp only [Bool.not_not, Bool.or_eq_true, decide_eq_true_eq]
    omega
  · rw [if_neg hc, if_pos]
    simp only [Bool.not_not, Bool.or_eq_true, decide_eq_true_eq]
    omega

theorem seqSize_one (x c : Byte) (h : ¬ x.val < 0x80) :
    utf8.seqSize x [c] =
      if 0xC2 ≤ x.val ∧ x.val ≤ 0xDF ∧ 0x80 ≤ c.val ∧ c.val ≤ 0xBF then some 2 else none := by
  rcases first_cases x h with ⟨e, h1⟩ | ⟨e, h1, h2⟩ | ⟨_, h3, h4, h5⟩
  · rw [seqSize_illegal x [c] e, if_neg (by omega)]
  · rw [seqSize_two x c e]
    by_cases hc : 0x80 ≤ c.val ∧ c.val ≤ 0xBF
    · rw [if_pos hc, if_pos ⟨h1, h2, hc.1, hc.2⟩]
    · rw [if_neg hc, if_neg (by omega)]
  · rw [seqSize_short x [c] (by simp only [List.length_cons, List.length_nil]; omega),
      if_neg (by omega)]

/-- The function `utf8.Valid` on a two-byte buffer: two ASCII bytes, or a lead byte in
`0xC2..0xDF` followed by a continuation byte in `0x80..0xBF`. -/
theorem Valid_pair (hi lo : Byte) :
    utf8.Valid [hi, lo] = true ↔
      (hi.val < 0x80 ∧ lo.val < 0x80) ∨
      (0xC2 ≤ hi.val ∧ hi.val ≤ 0xDF ∧ 0x80 ≤ lo.val ∧ lo.val ≤ 0xBF) := by
  by_cases h1 : hi.val < 0x80
  · rw [Valid_ascii _ _ h1]
    by_cases h2 : lo.val < 0x80
    · rw [Valid_ascii _ _ h2, Valid_nil]
      simp [h1, h2]
    · rw [Valid_multi _ _ h2, seqSize_nil _ h2]
      simp only [Bool.false_eq_true, false_iff]
      omega
  · rw [Valid_multi _ _ h1, seqSize_one _ _ h1]
    by_cases hc : 0xC2 ≤ hi.val ∧ hi.val ≤ 0xDF ∧ 0x80 ≤ lo.val ∧ lo.val ≤ 0xBF
    · rw [if_pos hc]
      simp only [List.drop, Valid_nil, true_iff]
      exact Or.inr hc
    · rw [if_neg hc]
      simp only [Bool.false_eq_true, false_iff]
      omega


/-! ## The two bytes of `IsUTF8` -/

theorem land_natCast (n m : Nat) : Int.land (n : Int) (m : Int) = ((n &&& m : Nat) : Int) := rfl

theorem shiftRight_natCast (n k : Nat) :
    Int.shiftRight (n : Int) k = ((n >>> k : Nat) : Int) := rfl

theorem land_ff (n : Nat) : n &&& 0xff = n % 256 := by
  have h := Nat.and_pow_two_sub_one_eq_mod n 8
  simpa using h

theorem land_ff00_shr (n : Nat) : (n &&& 0xff00) >>> 8 = n / 256 % 256 := by
  have e : (n &&& 0xff00) >>> 8 = (n >>> 8) &&& 0xff := by
    apply Nat.eq_of_testBit_eq
    intro j
    rw [Nat.testBit_shiftRight, Nat.testBit_and, Nat.testBit_and, Nat.testBit_shiftRight,
      ← Nat.testBit_shiftRight 0xff00]
    rfl
  rw [e, land_ff]
  simp [Nat.shiftRight_eq_div_pow]

/-- The low byte `S & 0xff` of a non-negative `S`. -/
theorem loByte_natCast (n : Nat) : Int.land (n : Int) 0xff = ((n % 256 : Nat) : Int) := by
  have h := land_natCast n 0xff
  rw [land_ff] at h
  exact h

/-- The high byte `(S & 0xff00) >> 8` of a non-negative `S`. -/
theorem hiByte_natCast (n : Nat) :
    Int.shiftRight (Int.land (n : Int) 0xff00) 8 = ((n / 256 % 256 : Nat) : Int) := by
  have h := land_natCast n 0xff00
  have h2 : Int.land (n : Int) 0xff00 = ((n &&& 0xff00 : Nat) : Int) := h
  rw [h2, shiftRight_natCast, land_ff00_shr]

theorem toByte_natCast (m : Nat) : (toByte (m : Int)).val = m % 256 := by
  unfold toByte
  have e : ((m : Int) % 256).toNat = m % 256 := by omega
  rw [e]
  simp [Fin.ofNat]

/-- The test `IsUTF8` on a non-negative argument, in terms of its bytes. -/
theorem IsUTF8_natCast (n : Nat) :
    IsUTF8 (n : Int) = true ↔
      (n / 256 % 256 < 0x80 ∧ n % 256 < 0x80) ∨
      (0xC2 ≤ n / 256 % 256 ∧ n / 256 % 256 ≤ 0xDF ∧ 0x80 ≤ n % 256 ∧ n % 256 ≤ 0xBF) := by
  unfold IsUTF8
  simp only []
  rw [hiByte_natCast, loByte_natCast, Valid_pair, toByte_natCast, toByte_natCast]
  simp only [Nat.mod_mod]

theorem S_allowed_UTF8_natCast (n : Nat) (hn : n < 65536) :
    S_allowed_UTF8 (n : Int) = true ↔
      (0xC2 ≤ n / 256 ∧ n / 256 ≤ 0xDF ∧ 0x80 ≤ n % 256 ∧ n % 256 ≤ 0xBF) := by
  unfold S_allowed_UTF8
  rw [Bool.and_eq_true, decide_eq_true_eq, IsUTF8_natCast]
  have e : n / 256 % 256 = n / 256 := Nat.mod_eq_of_lt (by omega)
  rw [e]
  omega


/-! ## Claims on the UTF-8 tests -/

/-- C4: for every 16-bit value `v` in `[0, 65535]`, `S_allowed_UTF8 v` is true
if and only if the high byte `v >> 8` lies in `0xC2..0xDF` and the low byte
`v & 0xFF` lies in `0x80..0xBF`; `0xC2A0` is accepted, `0x8080` and the
boundary value `0xC080` are rejected. -/
theorem S_allowed_UTF8_iff_two_byte (v : Int) (h0 : 0 ≤ v) (h1 : v ≤ 65535) :
    (S_allowed_UTF8 v = true ↔
      (0xC2 ≤ Int.shiftRight v 8 ∧ Int.shiftRight v 8 ≤ 0xDF ∧
        0x80 ≤ Int.land v 0xff ∧ Int.land v 0xff ≤ 0xBF)) ∧
    S_allowed_UTF8 0xC2A0 = true ∧ S_allowed_UTF8 0x8080 = false ∧
    S_allowed_UTF8 0xC080 = false := by
  refine ⟨?_, by decide, by decide, by decide⟩
  obtain ⟨n, rfl⟩ : ∃ n : Nat, v = n := ⟨v.toNat, by omega⟩
  have hn : n < 65536 := by omega
  rw [S_allowed_UTF8_natCast n hn, shiftRight_natCast, loByte_natCast,
    Nat.shiftRight_eq_div_pow]
  have e : (2 : Nat) ^ 8 = 256 := by decide
  rw [e]
  omega

theorem S_allowed_UTF8_iff_two_byte_witness :
    (0 : Int) ≤ 0xDFBF ∧ (0xDFBF : Int) ≤ 65535 ∧
    ((S_allowed_UTF8 0xDFBF = true ↔
      (0xC2 ≤ Int.shiftRight 0xDFBF 8 ∧ Int.shiftRight 0xDFBF 8 ≤ 0xDF ∧
        0x80 ≤ Int.land 0xDFBF 0xff ∧ Int.land 0xDFBF 0xff ≤ 0xBF)) ∧
    S_allowed_UTF8 0xC2A0 = true ∧ S_allowed_UTF8 0x8080 = false ∧
    S_allowed_UTF8 0xC080 = false) :=
  ⟨by decide, by decide, S_allowed_UTF8_iff_two_byte 0xDFBF (by decide) (by decide)⟩

/-- C7, as the code has it: for every 16-bit value `v` in `[0, 65535]`,
`IsUTF8 v` is true if and only if the two bytes of `v` are valid UTF-8 as a
two-byte buffer: either both bytes are ASCII (below `0x80`), or the lead byte
`v >> 8` is in `0xC2..0xDF` and the continuation byte `v & 0xFF` is in
`0x80..0xBF`. -/
theorem IsUTF8_iff_valid_pair (v : Int) (h0 : 0 ≤ v) (h1 : v ≤ 65535) :
    IsUTF8 v = true ↔
      (Int.shiftRight v 8 < 0x80 ∧ Int.land v 0xff < 0x80) ∨
      (0xC2 ≤ Int.shiftRight v 8 ∧ Int.shiftRight v 8 ≤ 0xDF ∧
        0x80 ≤ Int.land v 0xff ∧ Int.land v 0xff ≤ 0xBF) := by
  obtain ⟨n, rfl⟩ : ∃ n : Nat, v = n := ⟨v.toNat, by omega⟩
  have hn : n < 65536 := by omega
  rw [IsUTF8_natCast n, shiftRight_natCast, loByte_natCast, Nat.shiftRight_eq_div_pow]
  have e : (2 : Nat) ^ 8 = 256 := by decide
  have e2 : n / 256 % 256 = n / 256 := Nat.mod_eq_of_lt (by omega)
  rw [e, e2]
  omega

theorem IsUTF8_iff_valid_pair_witness :
    (0 : Int) ≤ 0x4142 ∧ (0x4142 : Int) ≤ 65535 ∧
    (IsUTF8 0x4142 = true ↔
      (Int.shiftRight 0x4142 8 < 0x80 ∧ Int.land 0x4142 0xff < 0x80) ∨
      (0xC2 ≤ Int.shiftRight 0x4142 8 ∧ Int.shiftRight 0x4142 8 ≤ 0xDF ∧
        0x80 ≤ Int.land 0x4142 0xff ∧ Int.land 0x4142 0xff ≤ 0xBF)) :=
  ⟨by decide, by decide, IsUTF8_iff_valid_pair 0x4142 (by decide) (by decide)⟩

/-- C7 as stated fails at `v = 0x4142` (the ASCII pair "AB"): `IsUTF8` accepts
it, and its lead byte `0x41` is not in `0xC2..0xDF`. -/
theorem IsUTF8_accepts_ascii_pair :
    ¬ (IsUTF8 0x4142 = true ↔
      (0xC2 ≤ Int.shiftRight 0x4142 8 ∧ Int.shiftRight 0x4142 8 ≤ 0xDF ∧
        0x80 ≤ Int.land 0x4142 0xff ∧ Int.land 0x4142 0xff ≤ 0xBF)) := by
  decide


/-! ## Binary search -/

/-- The loop of `sort.Search` over a predicate that answers on `[0, n)`: it
returns an index `r` in `[i, j]`, the entry before `r` (when the loop moved
`i`) fails the predicate and the entry at `r` (when the loop moved `j`)
satisfies it. No order is assumed. -/
theorem searchLoop_spec (f : Nat → Option Bool) (g : Nat → Bool) (n : Nat)
    (hf : ∀ h, h < n → f h = some (g h)) :
    ∀ (m i j : Nat), j - i = m → i ≤ j → j ≤ n →
      ∃ r, sort.searchLoop f i j = some r ∧ i ≤ r ∧ r ≤ j ∧
        (i < r → g (r - 1) = false) ∧ (r < j → g r = true) := by
  intro m
  induction m using Nat.strong_induction_on with
  | _ m ih =>
    intro i j hm hij hjn
    rw [sort.searchLoop]
    by_cases hlt : i < j
    · simp only [hlt, dite_true]
      have hh : (i + j) >>> 1 = (i + j) / 2 := by
        simp [Nat.shiftRight_eq_div_pow]
      rw [hh, hf ((i + j) / 2) (by omega)]
      simp only []
      cases hg : g ((i + j) / 2) with
      | false =>
        simp only [Bool.not_false, if_true]
        obtain ⟨r, h1, h2, h3, h4, h5⟩ :=
          ih (j - ((i + j) / 2 + 1)) (by omega) ((i + j) / 2 + 1) j rfl (by omega) hjn
        refine ⟨r, h1, by omega, h3, ?_, h5⟩
        intro _
        by_cases hr : (i + j) / 2 + 1 < r
        · exact h4 hr
        · have e : r - 1 = (i + j) / 2 := by omega
          rw [e]; exact hg
      | true =>
        simp only [Bool.not_true, Bool.false_eq_true, if_false]
        obtain ⟨r, h1, h2, h3, h4, h5⟩ :=
          ih ((i + j) / 2 - i) (by omega) i ((i + j) / 2) rfl (by omega) (by omega)
        refine ⟨r, h1, h2, by omega, h4, ?_⟩
        intro _
        by_cases hr : r < (i + j) / 2
        · exact h5 hr
        · have e : r = (i + j) / 2 := by omega
          rw [e]; exact hg
    · simp only [hlt, dite_false]
      exact ⟨i, rfl, le_refl _, hij, fun h => absurd h (lt_irrefl _), fun h => absurd h hlt⟩

/-- The function `sort.SearchInts` on any slice: it returns an index `r ≤ len(a)`; the entry
before `r`, if any, is below `x`, and the entry at `r`, if any, is at least `x`. -/
theorem SearchInts_spec (a : List Int) (x : Int) :
    ∃ r, sort.SearchInts a x = some r ∧ r ≤ a.length ∧
      (∀ (_ : 0 < r) (h : r - 1 < a.length), a[r - 1] < x) ∧
      (∀ h : r < a.length, x ≤ a[r]) := by
  have hf : ∀ h, h < a.length →
      (fun i => (a[i]?).map (fun e => decide (e ≥ x))) h
        = some ((fun k => decide (x ≤ a.getD k 0)) h) := by
    intro h hh
    simp [List.getElem?_eq_getElem hh, List.getD_eq_getElem _ _ hh]
  obtain ⟨r, h1, _, h3, h4, h5⟩ :=
    searchLoop_spec _ _ a.length hf a.length 0 a.length rfl (Nat.zero_le _) (le_refl _)
  refine ⟨r, h1, h3, ?_, ?_⟩
  · intro h0 h
    have := h4 h0
    simp only [List.getD_eq_getElem _ _ h, decide_eq_false_iff_not, not_le] at this
    exact this
  · intro h
    have := h5 h
    simp only [List.getD_eq_getElem _ _ h, decide_eq_true_eq] at this
    exact this

/-- The test `S_allowed` once the search has returned `r ≤ len`: the entry at `r` is `S`. -/
theorem S_allowed_of_search (S : Int) (cs : Charset) (r : Nat)
    (hr : sort.SearchInts cs.Combinations S = some r) (hle : r ≤ cs.Combinations.length) :
    S_allowed S cs = some (decide (cs.Combinations[r]? = some S)) := by
  unfold S_allowed
  simp only [hr]
  by_cases he : r = cs.Combinations.length
  · rw [if_pos he]
    have : cs.Combinations[r]? = none := by
      rw [List.getElem?_eq_none_iff]; omega
    simp [this]
  · rw [if_neg he]
    have hlt : r < cs.Combinations.length := by omega
    rw [List.getElem?_eq_getElem hlt]
    by_cases hv : cs.Combinations[r] = S
    · simp [hv]
    · simp [hv]

/-- The test `S_allowed` never reads outside the slice: it returns a boolean on every list. -/
theorem S_allowed_total (S : Int) (cs : Charset) : ∃ b, S_allowed S cs = some b := by
  obtain ⟨r, hr, hle, _, _⟩ := SearchInts_spec cs.Combinations S
  exact ⟨_, S_allowed_of_search S cs r hr hle⟩

/-- A positive answer of `S_allowed` is a member of the list, sorted or not. -/
theorem S_allowed_sound (S : Int) (cs : Charset) (h : S_allowed S cs = some true) :
    S ∈ cs.Combinations := by
  obtain ⟨r, hr, hle, _, _⟩ := SearchInts_spec cs.Combinations S
  rw [S_allowed_of_search S cs r hr hle] at h
  simp only [Option.some.injEq, decide_eq_true_eq] at h
  exact List.mem_iff_getElem?.mpr ⟨r, h⟩

/-- On an ascending list every member is found. -/
theorem S_allowed_complete (S : Int) (cs : Charset)
    (hs : cs.Combinations.Pairwise (fun x y => x < y)) (hm : S ∈ cs.Combinations) :
    S_allowed S cs = some true := by
  obtain ⟨r, hr, hle, hlo, hhi⟩ := SearchInts_spec cs.Combinations S
  rw [S_allowed_of_search S cs r hr hle]
  obtain ⟨k, hk, hkv⟩ := List.mem_iff_getElem.mp hm
  rw [List.pairwise_iff_getElem] at hs
  have hrk : r ≤ k := by
    by_contra hc
    have h0 : 0 < r := by omega
    have h1 : r - 1 < cs.Combinations.length := by omega
    have h2 := hlo h0 h1
    by_cases hkr : k = r - 1
    · subst hkr; omega
    · have := hs k (r - 1) hk h1 (by omega)
      omega
  have hrl : r < cs.Combinations.length := by omega
  have h3 := hhi hrl
  have h4 : cs.Combinations[r] = S := by
    by_cases hkr : r = k
    · subst hkr; exact hkv
    · have := hs r k hrl hk (by omega)
      omega
  simp [List.getElem?_eq_getElem hrl, h4]


theorem S2_lt_word (c : Nat) (hc : c < 2 ^ 32) : c / 65536 < 65536 := by omega

/-! ## Claims on the allow-list test and the combined predicate -/

/-- C3: for every integer `v` and every allow-list whose combinations are
strictly ascending, `S_allowed v set` returns true if and only if `v` is an
element of the list (and false otherwise); for `set = [10, 20, 30]`,
`S_allowed 20 = true`, `S_allowed 15 = false`, `S_allowed 31 = false`. -/
theorem S_allowed_iff_mem (v : Int) (cs : Charset)
    (hs : cs.Combinations.Pairwise (fun x y => x < y)) :
    (S_allowed v cs = some true ↔ v ∈ cs.Combinations) ∧
    (S_allowed v cs = some false ↔ v ∉ cs.Combinations) ∧
    S_allowed 20 ⟨[10, 20, 30]⟩ = some true ∧
    S_allowed 15 ⟨[10, 20, 30]⟩ = some false ∧
    S_allowed 31 ⟨[10, 20, 30]⟩ = some false := by
  have h1 : S_allowed v cs = some true ↔ v ∈ cs.Combinations :=
    ⟨S_allowed_sound v cs, S_allowed_complete v cs hs⟩
  refine ⟨h1, ?_, by decide, by decide, by decide⟩
  obtain ⟨b, hb⟩ := S_allowed_total v cs
  constructor
  · intro hf hm
    rw [h1.mpr hm] at hf
    cases hf
  · intro hm
    cases b with
    | false => exact hb
    | true => exact absurd (h1.mp hb) hm

theorem S_allowed_iff_mem_witness :
    ([10, 20, 30] : List Int).Pairwise (fun x y => x < y) ∧
    ((S_allowed 30 ⟨[10, 20, 30]⟩ = some true ↔ (30 : Int) ∈ ([10, 20, 30] : List Int)) ∧
    (S_allowed 30 ⟨[10, 20, 30]⟩ = some false ↔ (30 : Int) ∉ ([10, 20, 30] : List Int)) ∧
    S_allowed 20 ⟨[10, 20, 30]⟩ = some true ∧
    S_allowed 15 ⟨[10, 20, 30]⟩ = some false ∧
    S_allowed 31 ⟨[10, 20, 30]⟩ = some false) :=
  ⟨by decide, S_allowed_iff_mem 30 ⟨[10, 20, 30]⟩ (by decide)⟩

/-- C5: for every checksum `c` and every allow-list,
`Checksum_allowed c set = S1_S2_allowed (S1 c) (S2 c) set`; the result is true
if and only if `S_allowed_UTF8 (S2 c)` and `S_allowed (S1 c) set` both hold,
and it is false if and only if one of the two is false. -/
theorem Checksum_allowed_iff (c : Nat) (cs : Charset) :
    Checksum_allowed c cs = S1_S2_allowed (S1 c) (S2 c) cs ∧
    (Checksum_allowed c cs = some true ↔
      S_allowed_UTF8 (S2 c) = true ∧ S_allowed (S1 c) cs = some true) ∧
    (Checksum_allowed c cs = some false ↔
      S_allowed_UTF8 (S2 c) = false ∨ S_allowed (S1 c) cs = some false) := by
  refine ⟨rfl, ?_, ?_⟩
  · unfold Checksum_allowed S1_S2_allowed
    cases hu : S_allowed_UTF8 (S2 c) <;> simp
  · unfold Checksum_allowed S1_S2_allowed
    cases hu : S_allowed_UTF8 (S2 c) <;> simp

/-- C6, as the code has it: for every 32-bit checksum `c` and every
allow-list, if `Checksum_allowed c set` is true then the low half `S1 c` is a
member of the allow-list and the high half `S2 c` forms a valid two-byte UTF-8
sequence (it is above `0xC080`, its lead byte is in `0xC2..0xDF` and its
continuation byte in `0x80..0xBF`). -/
theorem Checksum_allowed_halves (c : Nat) (cs : Charset) (hc : c < 2 ^ 32)
    (h : Checksum_allowed c cs = some true) :
    S1 c ∈ cs.Combinations ∧
    (S2 c > 0xc080 ∧ IsUTF8 (S2 c) = true) ∧
    (0xC2 ≤ Int.shiftRight (S2 c) 8 ∧ Int.shiftRight (S2 c) 8 ≤ 0xDF ∧
      0x80 ≤ Int.land (S2 c) 0xff ∧ Int.land (S2 c) 0xff ≤ 0xBF) := by
  unfold Checksum_allowed S1_S2_allowed at h
  cases hu : S_allowed_UTF8 (S2 c) with
  | false => rw [hu] at h; simp at h
  | true =>
    rw [hu] at h
    simp only [if_true] at h
    refine ⟨S_allowed_sound _ _ h, ?_, ?_⟩
    · unfold S_allowed_UTF8 at hu
      rw [Bool.and_eq_true, decide_eq_true_eq] at hu
      exact hu
    · rw [S2_eq] at hu ⊢
      have hw := S2_lt_word c hc
      rw [S_allowed_UTF8_natCast _ hw] at hu
      rw [shiftRight_natCast, loByte_natCast, Nat.shiftRight_eq_div_pow]
      have e : (2 : Nat) ^ 8 = 256 := by decide
      rw [e]
      omega

theorem Checksum_allowed_halves_witness :
    (0xC2A00080 : Nat) < 2 ^ 32 ∧ Checksum_allowed 0xC2A00080 ⟨[0x80]⟩ = some true ∧
    (S1 0xC2A00080 ∈ (⟨[0x80]⟩ : Charset).Combinations ∧
    (S2 0xC2A00080 > 0xc080 ∧ IsUTF8 (S2 0xC2A00080) = true) ∧
    (0xC2 ≤ Int.shiftRight (S2 0xC2A00080) 8 ∧ Int.shiftRight (S2 0xC2A00080) 8 ≤ 0xDF ∧
      0x80 ≤ Int.land (S2 0xC2A00080) 0xff ∧ Int.land (S2 0xC2A00080) 0xff ≤ 0xBF)) :=
  ⟨by decide, by decide,
    Checksum_allowed_halves 0xC2A00080 ⟨[0x80]⟩ (by decide) (by decide)⟩

/-- C6 as stated fails at `c = 0xC2A00080` with the allow-list `[0x80]`:
`Checksum_allowed` is true, yet the high half `0xC2A0` is not in the
allow-list and the low half `0x0080` is not valid UTF-8. -/
theorem Checksum_allowed_checks_one_half_each :
    Checksum_allowed 0xC2A00080 ⟨[0x80]⟩ = some true ∧
    S2 0xC2A00080 ∉ (⟨[0x80]⟩ : Charset).Combinations ∧
    S_allowed (S2 0xC2A00080) ⟨[0x80]⟩ = some false ∧
    IsUTF8 (S1 0xC2A00080) = false ∧
    ¬ (Checksum_allowed 0xC2A00080 ⟨[0x80]⟩ = some true →
        (S1 0xC2A00080 ∈ (⟨[0x80]⟩ : Charset).Combinations ∧
          S2 0xC2A00080 ∈ (⟨[0x80]⟩ : Charset).Combinations) ∧
        (IsUTF8 (S1 0xC2A00080) = true ∧ IsUTF8 (S2 0xC2A00080) = true)) := by
  decide



/-! ## Claims on the search, the words and the constants -/

/-- When every entry is below `x`, the search returns `len(a)`. -/
theorem SearchInts_past_end (a : List Int) (x : Int) (h : ∀ e ∈ a, e < x) :
    sort.SearchInts a x = some a.length := by
  obtain ⟨r, hr, hle, _, hhi⟩ := SearchInts_spec a x
  by_cases hlt : r < a.length
  · have h1 := hhi hlt
    have h2 := h _ (List.getElem_mem hlt)
    omega
  · have e : r = a.length := by omega
    rw [hr, e]

/-- C11: `S_allowed` is total and never reads outside the allow-list. For every
integer `v` and every list (empty, sorted or unsorted) the binary search
returns an index in `[0, len]` without an access out of range, an index below
`len` is one where the list has an entry, `S_allowed` returns a boolean (no
access out of range), and when `v` is larger than every entry of the list
(the empty list included) the search returns `len` and `S_allowed` returns
false. -/
theorem S_allowed_never_out_of_range (v : Int) (cs : Charset) :
    (∃ r, sort.SearchInts cs.Combinations v = some r ∧ 0 ≤ r ∧ r ≤ cs.Combinations.length ∧
      (r ≠ cs.Combinations.length → ∃ e, cs.Combinations[r]? = some e)) ∧
    (∃ b, S_allowed v cs = some b) ∧
    ((∀ e ∈ cs.Combinations, e < v) →
      sort.SearchInts cs.Combinations v = some cs.Combinations.length ∧
      S_allowed v cs = some false) ∧
    S_allowed v ⟨[]⟩ = some false := by
  refine ⟨?_, S_allowed_total v cs, ?_, ?_⟩
  · obtain ⟨r, hr, hle, _, _⟩ := SearchInts_spec cs.Combinations v
    refine ⟨r, hr, Nat.zero_le _, hle, ?_⟩
    intro hne
    have hlt : r < cs.Combinations.length := by omega
    exact ⟨_, List.getElem?_eq_getElem hlt⟩
  · intro h
    have hs := SearchInts_past_end cs.Combinations v h
    refine ⟨hs, ?_⟩
    unfold S_allowed
    simp only [hs, if_true]
  · have hs := SearchInts_past_end [] v (by simp)
    unfold S_allowed
    simp only [hs, List.length_nil, if_true]

theorem S_allowed_never_out_of_range_witness :
    (∀ e ∈ (⟨[30, 10, 20]⟩ : Charset).Combinations, e < (31 : Int)) ∧
    sort.SearchInts (⟨[30, 10, 20]⟩ : Charset).Combinations 31
      = some (⟨[30, 10, 20]⟩ : Charset).Combinations.length ∧
    S_allowed 31 ⟨[30, 10, 20]⟩ = some false :=
  ⟨by decide, (S_allowed_never_out_of_range 31 ⟨[30, 10, 20]⟩).2.2.1 (by decide)⟩

/-- C12: for every 32-bit value `d`, `S1 d` is the low 16 bits `d mod 65536`
and `S2 d` is the high 16 bits `d div 65536`; both lie in `[0, 65535]` and
`S2 d * 65536 + S1 d = d`. -/
theorem S1_S2_decompose (d : Nat) (hd : d < 2 ^ 32) :
    S1 d = ((d % 65536 : Nat) : Int) ∧ S2 d = ((d / 65536 : Nat) : Int) ∧
    (0 ≤ S1 d ∧ S1 d ≤ 65535) ∧ (0 ≤ S2 d ∧ S2 d ≤ 65535) ∧
    S2 d * 65536 + S1 d = (d : Int) := by
  rw [S1_eq, S2_eq]
  refine ⟨rfl, rfl, ?_, ?_, ?_⟩ <;> omega

theorem S1_S2_decompose_witness :
    (0xC2A0FFF1 : Nat) < 2 ^ 32 ∧
    (S1 0xC2A0FFF1 = (((0xC2A0FFF1 : Nat) % 65536 : Nat) : Int) ∧
    S2 0xC2A0FFF1 = (((0xC2A0FFF1 : Nat) / 65536 : Nat) : Int) ∧
    (0 ≤ S1 0xC2A0FFF1 ∧ S1 0xC2A0FFF1 ≤ 65535) ∧
    (0 ≤ S2 0xC2A0FFF1 ∧ S2 0xC2A0FFF1 ≤ 65535) ∧
    S2 0xC2A0FFF1 * 65536 + S1 0xC2A0FFF1 = ((0xC2A0FFF1 : Nat) : Int)) :=
  ⟨by decide, S1_S2_decompose 0xC2A0FFF1 (by decide)⟩

/-- C14: the constant `nmax = 5552` is the largest `n` such that
`255 * n * (n+1) / 2 + (n+1) * (mod-1) <= 2^32 - 1`: the inequality holds for
`nmax` and fails for every larger `n`. -/
theorem nmax_is_largest :
    nmax = 5552 ∧
    255 * nmax * (nmax + 1) / 2 + (nmax + 1) * (mod - 1) ≤ 2 ^ 32 - 1 ∧
    ∀ n, nmax < n → ¬ (255 * n * (n + 1) / 2 + (n + 1) * (mod - 1) ≤ 2 ^ 32 - 1) := by
  refine ⟨rfl, by decide, ?_⟩
  intro n hn hle
  have hn2 : 5553 ≤ n := hn
  have h1 : 255 * 5553 * (5553 + 1) ≤ 255 * n * (n + 1) :=
    Nat.mul_le_mul (Nat.mul_le_mul_left _ hn2) (by omega)
  have h2 : 255 * 5553 * (5553 + 1) / 2 ≤ 255 * n * (n + 1) / 2 :=
    Nat.div_le_div_right h1
  have h3 : (5553 + 1) * (mod - 1) ≤ (n + 1) * (mod - 1) :=
    Nat.mul_le_mul_right _ (by omega)
  have e1 : 255 * 5553 * (5553 + 1) / 2 = 3932273655 := by decide
  have e2 : (5553 + 1) * (mod - 1) = 363898080 := by decide
  have e3 : (2 : Nat) ^ 32 - 1 = 4294967295 := by decide
  rw [e1] at h2
  rw [e2] at h3
  rw [e3] at hle
  omega

theorem nmax_is_largest_witness :
    nmax < 5553 ∧
    ¬ (255 * 5553 * (5553 + 1) / 2 + (5553 + 1) * (mod - 1) ≤ 2 ^ 32 - 1) :=
  ⟨by decide, nmax_is_largest.2.2 5553 (by decide)⟩

/-- C15: `Update` with no data is the identity and does not normalise: for
every 32-bit `d`, `Update d [] = d`, also when a half of `d` is above 65520;
`Update 0xFFFFFFFF [] = 0xFFFFFFFF`, whose halves are both 65535. -/
theorem Update_no_data_identity (d : Nat) (hd : d < 2 ^ 32) :
    Update d [] = d ∧
    Update 0xFFFFFFFF [] = 0xFFFFFFFF ∧
    S1 (Update 0xFFFFFFFF []) = 65535 ∧ S2 (Update 0xFFFFFFFF []) = 65535 := by
  exact ⟨Update_nil d hd, by decide, by decide, by decide⟩

theorem Update_no_data_identity_witness :
    (0xFFF1FFF1 : Nat) < 2 ^ 32 ∧
    (Update 0xFFF1FFF1 [] = 0xFFF1FFF1 ∧
    Update 0xFFFFFFFF [] = 0xFFFFFFFF ∧
    S1 (Update 0xFFFFFFFF []) = 65535 ∧ S2 (Update 0xFFFFFFFF []) = 65535) :=
  ⟨by decide, Update_no_data_identity 0xFFF1FFF1 (by decide)⟩

/-- C16: `S_allowed` is sound without any ordering assumption: for every
integer `v` and every list, sorted or not, with or without duplicates, if
`S_allowed v set` returns true then `v` is an element of the list. -/
theorem S_allowed_true_is_member (v : Int) (cs : Charset)
    (h : S_allowed v cs = some true) : v ∈ cs.Combinations :=
  S_allowed_sound v cs h

theorem S_allowed_true_is_member_witness :
    S_allowed 20 ⟨[30, 10, 20, 20]⟩ = some true ∧
    (20 : Int) ∈ (⟨[30, 10, 20, 20]⟩ : Charset).Combinations :=
  ⟨by decide, S_allowed_true_is_member 20 ⟨[30, 10, 20, 20]⟩ (by decide)⟩

/-- C17: the ordering precondition of `S_allowed` is necessary: the list
`[30, 10, 20]` is not ascending, it contains `30`, and `S_allowed 30` returns
false on it. -/
theorem S_allowed_needs_order :
    ¬ ([30, 10, 20] : List Int).Pairwise (fun x y => x < y) ∧
    (30 : Int) ∈ (⟨[30, 10, 20]⟩ : Charset).Combinations ∧
    S_allowed 30 ⟨[30, 10, 20]⟩ = some false ∧
    ∃ (cs : Charset) (v : Int), ¬ cs.Combinations.Pairwise (fun x y => x < y) ∧
      v ∈ cs.Combinations ∧ S_allowed v cs = some false := by
  refine ⟨by decide, by decide, by decide, ⟨[30, 10, 20]⟩, 30, by decide, by decide, by decide⟩

/-- C18: `IsUTF8` looks only at the low 16 bits of its argument: for every
non-negative `S`, `IsUTF8 S = IsUTF8 (S mod 65536)`. The bits above bit 15 are
not range-checked: `0x1C2A0` and `0x14142` pass `IsUTF8` and `S_allowed_UTF8`,
and `S1_S2_allowed` accepts `0x1C2A0` as its high word. -/
theorem IsUTF8_low_16_bits (S : Int) (h0 : 0 ≤ S) :
    IsUTF8 S = IsUTF8 (S % 65536) ∧
    IsUTF8 0x1C2A0 = true ∧ S_allowed_UTF8 0x1C2A0 = true ∧
    IsUTF8 0x14142 = true ∧ S_allowed_UTF8 0x14142 = true ∧
    S1_S2_allowed 0x80 0x1C2A0 ⟨[0x80]⟩ = some true := by
  refine ⟨?_, by decide, by decide, by decide, by decide, by decide⟩
  obtain ⟨n, rfl⟩ : ∃ n : Nat, S = n := ⟨S.toNat, by omega⟩
  have e : ((n : Int) % 65536) = ((n % 65536 : Nat) : Int) := by omega
  rw [e, Bool.eq_iff_iff, IsUTF8_natCast, IsUTF8_natCast]
  have e1 : n % 65536 / 256 % 256 = n / 256 % 256 := by omega
  have e2 : n % 65536 % 256 = n % 256 := by omega
  rw [e1, e2]

theorem IsUTF8_low_16_bits_witness :
    (0 : Int) ≤ 0x7FFFC2A0 ∧
    (IsUTF8 0x7FFFC2A0 = IsUTF8 (0x7FFFC2A0 % 65536) ∧
    IsUTF8 0x1C2A0 = true ∧ S_allowed_UTF8 0x1C2A0 = true ∧
    IsUTF8 0x14142 = true ∧ S_allowed_UTF8 0x14142 = true ∧
    S1_S2_allowed 0x80 0x1C2A0 ⟨[0x80]⟩ = some true) :=
  ⟨by decide, IsUTF8_low_16_bits 0x7FFFC2A0 (by decide)⟩

/-- C20: the constant `mod = 65521` is the largest prime that is less than
65536: it is prime, and no `n` with `65521 < n < 65536` is prime. -/
theorem mod_is_largest_prime :
    mod = 65521 ∧ Nat.Prime mod ∧ mod < 65536 ∧
    ∀ n, mod < n → n < 65536 → ¬ Nat.Prime n := by
  refine ⟨rfl, ?_, by decide, ?_⟩
  · unfold mod; norm_num
  · intro n h1 h2
    unfold mod at h1
    interval_cases n <;> norm_num

theorem mod_is_largest_prime_witness :
    mod < 65531 ∧ (65531 : Nat) < 65536 ∧ ¬ Nat.Prime 65531 :=
  ⟨by decide, by decide, mod_is_largest_prime.2.2.2 65531 (by decide) (by decide)⟩


/-! ## No addition wraps -/

theorem blockStep_eq_refStep (a b : Nat) (x : Byte)
    (h1 : a + x.val < 2 ^ 32) (h2 : b + (a + x.val) < 2 ^ 32) :
    blockStep (a, b) x = refStep (a, b) x ∧ stepWraps (a, b) x = false := by
  have hx : x.val < 256 := x.isLt
  have ex : u32 x.val = x.val := u32_of_lt (by omega)
  have ea : u32 (a + x.val) = a + x.val := u32_of_lt h1
  have eb : u32 (b + (a + x.val)) = b + (a + x.val) := u32_of_lt h2
  constructor
  · simp only [blockStep, refStep, ex, ea, eb]
  · simp only [stepWraps, ex, ea, Bool.or_eq_false_iff, decide_eq_false_iff_not]
    constructor <;> omega

/-- A block whose unbounded accumulators end below `2 ^ 32` has no wrapping
addition, and the `uint32` states after every byte are the unbounded ones. -/
theorem block_no_wrap (p : List Byte) (a b : Nat)
    (h1 : (refLoop a b p).1 < 2 ^ 32) (h2 : (refLoop a b p).2 < 2 ^ 32) :
    blockWraps a b p = false ∧
    p.scanl blockStep (a, b) = p.scanl refStep (a, b) ∧
    p.foldl blockStep (a, b) = p.foldl refStep (a, b) := by
  induction p generalizing a b with
  | nil => exact ⟨rfl, rfl, rfl⟩
  | cons x p ih =>
    rw [refLoop_cons] at h1 h2
    have hg := refLoop_ge p (a + x.val) (b + (a + x.val))
    obtain ⟨es, ew⟩ := blockStep_eq_refStep a b x (by omega) (by omega)
    have er : refStep (a, b) x = (a + x.val, b + (a + x.val)) := rfl
    obtain ⟨i1, i2, i3⟩ := ih _ _ h1 h2
    refine ⟨?_, ?_, ?_⟩
    · simp only [blockWraps, ew, es, er, i1, Bool.or_self]
    · simp only [List.scanl_cons, es, er, i2]
    · simp only [List.foldl_cons, es, er, i3]

theorem block_no_wrap_of_len (p : List Byte) (a b : Nat)
    (ha : a < 65536) (hb : b < 65536) (hp : p.length ≤ 5552) :
    blockWraps a b p = false ∧
    p.scanl blockStep (a, b) = p.scanl refStep (a, b) ∧
    p.foldl blockStep (a, b) = p.foldl refStep (a, b) := by
  obtain ⟨h1, h2⟩ := refLoop_lt_of_block p a b ha hb hp
  exact block_no_wrap p a b h1 h2

theorem updateWraps_nil (n : Nat) (hn : 0 < n) (a b : Nat) :
    updateWraps n hn a b [] = false := by
  rw [updateWraps]; simp

theorem updateWraps_step (n : Nat) (hn : 0 < n) (a b : Nat) (p : List Byte) (hp : p ≠ []) :
    updateWraps n hn a b p =
      (blockWraps a b (if p.length > n then p.take n else p) ||
        updateWraps n hn
          ((blockLoop a b (if p.length > n then p.take n else p)).1 % mod)
          ((blockLoop a b (if p.length > n then p.take n else p)).2 % mod)
          (if p.length > n then p.drop n else [])) := by
  have hl : p.length > 0 := List.length_pos.mpr hp
  rw [updateWraps]
  simp only [hl, dite_true]

theorem updateRun_nil (step : Nat × Nat → Byte → Nat × Nat) (n : Nat) (hn : 0 < n)
    (a b : Nat) : updateRun step n hn a b [] = ((a, b), []) := by
  rw [updateRun]; simp

theorem updateRun_step (step : Nat × Nat → Byte → Nat × Nat) (n : Nat) (hn : 0 < n)
    (a b : Nat) (p : List Byte) (hp : p ≠ []) :
    updateRun step n hn a b p =
      ((updateRun step n hn
          (((if p.length > n then p.take n else p).foldl step (a, b)).1 % mod)
          (((if p.length > n then p.take n else p).foldl step (a, b)).2 % mod)
          (if p.length > n then p.drop n else [])).1,
        ((if p.length > n then p.take n else p).scanl step (a, b)).tail ++
        (updateRun step n hn
          (((if p.length > n then p.take n else p).foldl step (a, b)).1 % mod)
          (((if p.length > n then p.take n else p).foldl step (a, b)).2 % mod)
          (if p.length > n then p.drop n else [])).2) := by
  have hl : p.length > 0 := List.length_pos.mpr hp
  rw [updateRun]
  simp only [hl, dite_true]

/-- The block and the rest taken by one pass of the outer loop. -/
theorem block_split (n : Nat) (hn : 0 < n) (p : List Byte) (hp : p ≠ []) :
    (if p.length > n then p.take n else p).length ≤ n ∧
    (if p.length > n then p.drop n else []).length < p.length := by
  have hl : p.length > 0 := List.length_pos.mpr hp
  by_cases hlt : p.length > n
  · simp only [hlt, if_true, List.length_take, List.length_drop]
    omega
  · simp only [hlt, if_false, List.length_nil]
    omega

/-- The final state of the instrumented loop is that of `updateLoop`. -/
theorem updateRun_fst (n : Nat) (hn : 0 < n) :
    ∀ (k : Nat) (p : List Byte) (a b : Nat), p.length = k →
      (updateRun blockStep n hn a b p).1 = updateLoop n hn a b p := by
  intro k
  induction k using Nat.strong_induction_on with
  | _ k ih =>
    intro p a b hk
    by_cases hp : p = []
    · subst hp; rw [updateRun_nil, updateLoop_nil]
    · rw [updateRun_step blockStep n hn a b p hp, updateLoop_step n hn a b p hp]
      obtain ⟨_, hq⟩ := block_split n hn p hp
      exact ih _ (by omega) _ _ _ rfl

/-- With a block size of at most 5552 and 16-bit start values, no addition of
the outer loop wraps and the `uint32` run is the run over unbounded naturals. -/
theorem update_no_wrap (n : Nat) (hn : 0 < n) (hn2 : n ≤ 5552) :
    ∀ (k : Nat) (p : List Byte) (a b : Nat), p.length = k →
      a < 65536 → b < 65536 →
      updateWraps n hn a b p = false ∧
      updateRun blockStep n hn a b p = updateRun refStep n hn a b p := by
  intro k
  induction k using Nat.strong_induction_on with
  | _ k ih =>
    intro p a b hk ha hb
    by_cases hp : p = []
    · subst hp
      rw [updateWraps_nil, updateRun_nil, updateRun_nil]
      exact ⟨rfl, rfl⟩
    · obtain ⟨hbl, hq⟩ := block_split n hn p hp
      obtain ⟨w1, w2, w3⟩ := block_no_wrap_of_len
        (if p.length > n then p.take n else p) a b ha hb (by omega)
      have hm : ∀ x : Nat, x % mod < 65536 := mod_lt_word
      have e : blockLoop a b (if p.length > n then p.take n else p)
          = (if p.length > n then p.take n else p).foldl refStep (a, b) := by
        unfold blockLoop; exact w3
      obtain ⟨r1, r2⟩ := ih _ (by omega) (if p.length > n then p.drop n else [])
        (((if p.length > n then p.take n else p).foldl refStep (a, b)).1 % mod)
        (((if p.length > n then p.take n else p).foldl refStep (a, b)).2 % mod)
        rfl (hm _) (hm _)
      constructor
      · rw [updateWraps_step n hn a b p hp, w1, e, r1]
        rfl
      · rw [updateRun_step blockStep n hn a b p hp, updateRun_step refStep n hn a b p hp,
          w2, w3, r2]

/-- C13: the accumulators never overflow. For every 32-bit prior `d`, with
halves up to 65535, and every byte sequence `p`, no execution of
`s1 += uint32(x)` or `s2 += s1` inside `Update` wraps around `2 ^ 32`; the
run of the loop in `uint32`, state by state after every byte and in its final
state, is the run of the same loop over unbounded naturals, and its final
state is the one `Update` packs. -/
theorem Update_never_wraps (d : Nat) (hd : d < 2 ^ 32) (p : List Byte) :
    updateWraps nmax (by decide) (u32 (d &&& 0xffff)) (u32 (d >>> 16)) p = false ∧
    updateRun blockStep nmax (by decide) (u32 (d &&& 0xffff)) (u32 (d >>> 16)) p
      = updateRun refStep nmax (by decide) (u32 (d &&& 0xffff)) (u32 (d >>> 16)) p ∧
    (updateRun blockStep nmax (by decide) (u32 (d &&& 0xffff)) (u32 (d >>> 16)) p).1
      = updateLoop nmax (by decide) (u32 (d &&& 0xffff)) (u32 (d >>> 16)) p := by
  obtain ⟨e1, e2, h1, h2⟩ := start_state d hd
  rw [e1, e2]
  obtain ⟨w, r⟩ := update_no_wrap nmax (by decide) nmax_le p.length p _ _ rfl h1 h2
  exact ⟨w, r, updateRun_fst nmax (by decide) p.length p _ _ rfl⟩

theorem Update_never_wraps_witness :
    (0xFFFFFFFF : Nat) < 2 ^ 32 ∧
    updateWraps nmax (by decide) (u32 (0xFFFFFFFF &&& 0xffff)) (u32 (0xFFFFFFFF >>> 16))
      [255, 255, 255] = false ∧
    updateRun blockStep nmax (by decide) (u32 (0xFFFFFFFF &&& 0xffff))
        (u32 (0xFFFFFFFF >>> 16)) [255, 255, 255]
      = updateRun refStep nmax (by decide) (u32 (0xFFFFFFFF &&& 0xffff))
        (u32 (0xFFFFFFFF >>> 16)) [255, 255, 255] ∧
    (updateRun blockStep nmax (by decide) (u32 (0xFFFFFFFF &&& 0xffff))
        (u32 (0xFFFFFFFF >>> 16)) [255, 255, 255]).1
      = updateLoop nmax (by decide) (u32 (0xFFFFFFFF &&& 0xffff))
        (u32 (0xFFFFFFFF >>> 16)) [255, 255, 255] :=
  ⟨by decide, Update_never_wraps 0xFFFFFFFF (by decide) [255, 255, 255]⟩


/-- The instrumented loop does report a wrap when one happens: from the
out-of-range start state `(2 ^ 32 - 1, 0)` the first addition wraps. -/
theorem updateWraps_detects :
    updateWraps nmax (by decide) 0xFFFFFFFF 0 [1] = true := by
  decide

/-! ## Termination of the outer loop -/

theorem updateLoopFuel_nil (n fuel a b : Nat) :
    updateLoopFuel n fuel a b [] = some (a, b) := by
  cases fuel <;> simp [updateLoopFuel]

theorem updateLoopFuel_zero (n a b : Nat) (p : List Byte) (hp : p ≠ []) :
    updateLoopFuel n 0 a b p = none := by
  have hl : p.length > 0 := List.length_pos.mpr hp
  simp only [updateLoopFuel, hl, if_true]

theorem updateLoopFuel_succ (n fuel a b : Nat) (p : List Byte) (hp : p ≠ []) :
    updateLoopFuel n (fuel + 1) a b p =
      updateLoopFuel n fuel
        ((blockLoop a b (if p.length > n then p.take n else p)).1 % mod)
        ((blockLoop a b (if p.length > n then p.take n else p)).2 % mod)
        (if p.length > n then p.drop n else []) := by
  have hl : p.length > 0 := List.length_pos.mpr hp
  simp only [updateLoopFuel, hl, if_true]

/-- The rest left by one pass with block size 5552: it is shorter by
`min(len, 5552)`, which is positive. -/
theorem rest_length (p : List Byte) (hp : p ≠ []) :
    0 < min p.length 5552 ∧
    (if p.length > 5552 then p.drop 5552 else []).length = p.length - min p.length 5552 := by
  have hl : p.length > 0 := List.length_pos.mpr hp
  by_cases hlt : p.length > 5552
  · simp only [hlt, if_true, List.length_drop]
    omega
  · simp only [hlt, if_false, List.length_nil]
    omega

/-- With block size 5552 the loop returns within `fuel` iterations exactly
when `fuel` is at least `ceil(len / 5552)`, and then returns the state of
`updateLoop`. -/
theorem updateLoopFuel_spec :
    ∀ (fuel : Nat) (p : List Byte) (a b : Nat),
      ((p.length + 5551) / 5552 ≤ fuel →
        updateLoopFuel 5552 fuel a b p = some (updateLoop 5552 (by decide) a b p)) ∧
      (fuel < (p.length + 5551) / 5552 → updateLoopFuel 5552 fuel a b p = none) := by
  intro fuel
  induction fuel with
  | zero =>
    intro p a b
    by_cases hp : p = []
    · subst hp
      rw [updateLoopFuel_nil, updateLoop_nil]
      exact ⟨fun _ => rfl, fun h => by simp at h⟩
    · have hl : p.length > 0 := List.length_pos.mpr hp
      rw [updateLoopFuel_zero _ _ _ _ hp]
      exact ⟨fun h => by omega, fun _ => rfl⟩
  | succ fuel ih =>
    intro p a b
    by_cases hp : p = []
    · subst hp
      rw [updateLoopFuel_nil, updateLoop_nil]
      exact ⟨fun _ => rfl, fun h => by simp at h⟩
    · obtain ⟨_, hr⟩ := rest_length p hp
      rw [updateLoopFuel_succ _ _ _ _ _ hp, updateLoop_step 5552 (by decide) a b p hp]
      obtain ⟨i1, i2⟩ := ih (if p.length > 5552 then p.drop 5552 else [])
        ((blockLoop a b (if p.length > 5552 then p.take 5552 else p)).1 % mod)
        ((blockLoop a b (if p.length > 5552 then p.take 5552 else p)).2 % mod)
      rw [hr] at i1 i2
      have hl : p.length > 0 := List.length_pos.mpr hp
      constructor
      · intro h
        exact i1 (by omega)
      · intro h
        exact i2 (by omega)

/-- C19: `Update` terminates on every input. Each iteration of the block loop
on a non-empty input takes `min(len, 5552) > 0` bytes off the remaining
input, and the loop returns after exactly `ceil(len(p) / 5552)` iterations:
with that many iterations allowed (or more) it returns the value of `Update`,
with fewer it has input left. -/
theorem Update_terminates (d : Nat) (p : List Byte) :
    (p ≠ [] →
      0 < min p.length nmax ∧
      (if p.length > nmax then p.drop nmax else []).length
        = p.length - min p.length nmax ∧
      (if p.length > nmax then p.drop nmax else []).length < p.length) ∧
    (∀ fuel, (p.length + (nmax - 1)) / nmax ≤ fuel →
      UpdateFuel fuel d p = some (Update d p)) ∧
    (∀ fuel, fuel < (p.length + (nmax - 1)) / nmax → UpdateFuel fuel d p = none) ∧
    UpdateFuel ((p.length + (nmax - 1)) / nmax) d p = some (Update d p) := by
  have key := fun fuel =>
    updateLoopFuel_spec fuel p (u32 (d &&& 0xffff)) (u32 (d >>> 16))
  have enough : ∀ fuel, (p.length + (nmax - 1)) / nmax ≤ fuel →
      UpdateFuel fuel d p = some (Update d p) := by
    intro fuel h
    have h2 : (p.length + 5551) / 5552 ≤ fuel := h
    have e : updateLoopFuel nmax fuel (u32 (d &&& 0xffff)) (u32 (d >>> 16)) p
        = some (updateLoop nmax (by decide) (u32 (d &&& 0xffff)) (u32 (d >>> 16)) p) :=
      (key fuel).1 h2
    unfold UpdateFuel Update UpdateWith
    rw [e]
    rfl
  refine ⟨?_, enough, ?_, enough _ (le_refl _)⟩
  · intro hp
    obtain ⟨h1, h2⟩ := rest_length p hp
    have h1n : 0 < min p.length nmax := h1
    have h2n : (if p.length > nmax then p.drop nmax else []).length
        = p.length - min p.length nmax := h2
    refine ⟨h1n, h2n, ?_⟩
    have hl : p.length > 0 := List.length_pos.mpr hp
    rw [h2n]
    omega
  · intro fuel h
    have h2 : fuel < (p.length + 5551) / 5552 := h
    have e : updateLoopFuel nmax fuel (u32 (d &&& 0xffff)) (u32 (d >>> 16)) p = none :=
      (key fuel).2 h2
    unfold UpdateFuel
    rw [e]
    rfl

theorem Update_terminates_witness :
    ([7, 8, 9] : List Byte) ≠ [] ∧
    (0 < min ([7, 8, 9] : List Byte).length nmax ∧
      (if ([7, 8, 9] : List Byte).length > nmax then ([7, 8, 9] : List Byte).drop nmax
        else []).length
        = ([7, 8, 9] : List Byte).length - min ([7, 8, 9] : List Byte).length nmax ∧
      (if ([7, 8, 9] : List Byte).length > nmax then ([7, 8, 9] : List Byte).drop nmax
        else []).length < ([7, 8, 9] : List Byte).length) ∧
    (([7, 8, 9] : List Byte).length + (nmax - 1)) / nmax ≤ 1 ∧
    UpdateFuel 1 0xFFFFFFFF [7, 8, 9] = some (Update 0xFFFFFFFF [7, 8, 9]) ∧
    0 < (([7, 8, 9] : List Byte).length + (nmax - 1)) / nmax ∧
    UpdateFuel 0 0xFFFFFFFF [7, 8, 9] = none :=
  ⟨by decide,
    (Update_terminates 0xFFFFFFFF [7, 8, 9]).1 (by decide),
    by decide,
    (Update_terminates 0xFFFFFFFF [7, 8, 9]).2.1 1 (by decide),
    by decide,
    (Update_terminates 0xFFFFFFFF [7, 8, 9]).2.2.1 0 (by decide)⟩


end Adler32Mod
